import Mathlib

/-!
Verification of the end-to-end test harness of the concrete repository
(`compiler/tests/end_to_end_tests/end_to_end_test.cc`) and of the FHE Python
binding error wiring (`compiler/lib/Bindings/Python/FHEModule.cpp`).

The C++ harness is shallowly embedded: stateful orchestration becomes explicit
state passing together with an event trace recording the external calls a test
case performs (compilation, keyset retrieval, circuit construction, circuit
invocation, result comparison, temp-folder deletion).  External collaborators
(the compilation engine, the keyset cache, the circuit runtime and the
type-aware result comparison `checkResult`) are parameters of the model,
gathered in an environment record, since the harness treats them as opaque.
-/

namespace EndToEnd

/-- Stands for `concretelang::values::Value`; the harness treats values as
opaque data handed to the circuit and to the comparison routine. -/
abbrev Val := Nat

/-- Stands for the keyset object returned by the keyset cache. -/
abbrev Keyset := Nat

/-- Stands for a constructed `TestCircuit` handle. -/
abbrev Circuit := Nat

/-- Field `TestErrorRate` of the fixture: a target `global_p_error` together
with a repetition count.  The C++ `double` is modelled as a rational. -/
structure TestErrorRate where
  global_p_error : ℚ
  nb_repetition : Nat
deriving DecidableEq

/-- Modelled from the spec: `TestErrorRate::too_high_error_count_threshold` is
declared in `end_to_end_fixture/EndToEndFixture.h`, which is not among the
sources; the spec (sections 4.3 and 9) requires a one-sided tail bound on the
binomial mismatch count, monotonically non-decreasing in the repetition count
for a fixed `global_p_error`.  We model it as the binomial mean `n * p` plus a
deviation term proportional to the square root of `n`. -/
def TestErrorRate.too_high_error_count_threshold (r : TestErrorRate) : ℚ :=
  (r.nb_repetition : ℚ) * r.global_p_error + 5 * (Nat.sqrt r.nb_repetition : ℚ)

/-- The optimizer part of `mlir::concretelang::CompilationOptions`.  In the
C++ sources `p_error` and `global_p_error` are `double`s where `NAN` means
"unset"; both are modelled as `Option ℚ` with `none` for `NAN`.  The encoding
enumeration is opaque to the harness and modelled as a number. -/
structure OptimizerConfig where
  p_error : Option ℚ
  global_p_error : Option ℚ
  encoding : Nat
deriving DecidableEq

/-- The slice of `mlir::concretelang::CompilationOptions` the harness touches:
the optimizer configuration and the optional `v0FHEConstraints` (opaque). -/
structure CompilationOptions where
  optimizerConfig : OptimizerConfig
  v0FHEConstraints : Option Nat
deriving DecidableEq

/-- `TestDescription`: typed input values and typed expected output values. -/
structure TestDescription where
  inputs : List Val
  outputs : List Val
deriving DecidableEq

/-- `EndToEndDesc`: one program descriptor, as consumed by
`registerEndToEnd`.  Only the fields the harness reads are modelled. -/
structure EndToEndDesc where
  description : String
  program : String
  p_error : Option ℚ
  v0Constraint : Option Nat
  encoding : Nat
  tests : List TestDescription
  test_error_rates : List TestErrorRate
deriving DecidableEq

/-- The option adjustment performed by the `EndToEndTest` constructor
(end_to_end_test.cc lines 31 to 34): when an error-rate variant is present,
both `global_p_error` and `p_error` are assigned the variant's
`global_p_error`. -/
def applyErrorRate (errorRate : Option TestErrorRate) (options : CompilationOptions) :
    CompilationOptions :=
  match errorRate with
  | some er =>
      { options with
        optimizerConfig :=
          { options.optimizerConfig with
            global_p_error := some er.global_p_error
            p_error := some er.global_p_error } }
  | none => options

/-- The merge of a descriptor into baseline options performed at the top of
`registerEndToEnd` (lines 150 to 157): install the optional v0 constraints,
install the encoding, and, when the descriptor sets `p_error`, set it and
reset `global_p_error` to `NAN` (modelled as `none`). -/
def mergeDescOptions (desc : EndToEndDesc) (options : CompilationOptions) :
    CompilationOptions :=
  let options1 :=
    match desc.v0Constraint with
    | some c => { options with v0FHEConstraints := some c }
    | none => options
  let options2 :=
    { options1 with
      optimizerConfig := { options1.optimizerConfig with encoding := desc.encoding } }
  match desc.p_error with
  | some pe =>
      { options2 with
        optimizerConfig :=
          { options2.optimizerConfig with p_error := some pe, global_p_error := none } }
  | none => options2

/-- Removal of every dash, as `std::regex_replace(s, std::regex("-"), "")`
does in `getTestName`. -/
def removeDashes (s : String) : String :=
  String.mk (s.data.filter (fun c => c ≠ '-'))

/-- `getTestName` (lines 125 to 131).  `getOptionsName` lives in
`end_to_end_jit_test.h`, outside the sources, so it is a parameter. -/
def getTestName (optionsName : CompilationOptions → String) (desc : EndToEndDesc)
    (options : CompilationOptions) (testNum : Nat) : String :=
  removeDashes (optionsName options ++ "." ++ desc.description ++ "." ++ Nat.repr testNum)

/-- The data captured by one `::testing::RegisterTest` call: everything the
factory closure of `registerEndToEnd` (lines 133 to 146) closes over. -/
structure RegisteredTest where
  suiteName : String
  testName : String
  valueName : String
  program : String
  test : TestDescription
  errorRate : Option TestErrorRate
  options : CompilationOptions
deriving DecidableEq

/-- The single registration of one test case (lines 133 to 146): the data is
recorded for lazy construction, nothing is compiled or executed. -/
def registerOne (suiteName testName valueName program : String)
    (test : TestDescription) (errorRate : Option TestErrorRate)
    (options : CompilationOptions) : RegisteredTest :=
  ⟨suiteName, testName, valueName, program, test, errorRate, options⟩

/-- The inner loop of `registerEndToEnd` (lines 166 to 172): one registration
per error-rate variant, with the counter `j` appended to the name. -/
def registerRates (suiteName testName valueName program : String)
    (test : TestDescription) (options : CompilationOptions) :
    Nat → List TestErrorRate → List RegisteredTest
  | _, [] => []
  | j, rate :: rest =>
      registerOne suiteName (testName ++ "_rate" ++ Nat.repr j) valueName program test
          (some rate) options ::
        registerRates suiteName testName valueName program test options (j + 1) rest

/-- The outer loop of `registerEndToEnd` (lines 158 to 175): one registration
per test when no error rates are declared, otherwise one per (test, rate)
pair, with the counter `i` entering the name and the value name. -/
def registerTests (optionsName : CompilationOptions → String) (suiteName : String)
    (desc : EndToEndDesc) (options : CompilationOptions) :
    Nat → List TestDescription → List RegisteredTest
  | _, [] => []
  | i, test :: rest =>
      (if desc.test_error_rates.isEmpty then
        [registerOne suiteName (getTestName optionsName desc options i) (Nat.repr i)
            desc.program test none options]
      else
        registerRates suiteName (getTestName optionsName desc options i) (Nat.repr i)
          desc.program test options 0 desc.test_error_rates) ++
        registerTests optionsName suiteName desc options (i + 1) rest

/-- `registerEndToEnd` for one descriptor (lines 148 to 176): merge the
descriptor into the baseline options, then register every test. -/
def registerEndToEnd (optionsName : CompilationOptions → String) (suiteName : String)
    (desc : EndToEndDesc) (options : CompilationOptions) : List RegisteredTest :=
  registerTests optionsName suiteName desc (mergeDescOptions desc options) 0 desc.tests

/-- `registerEndToEndSuite` (lines 182 to 188): register every descriptor in
order. -/
def registerEndToEndSuite (optionsName : CompilationOptions → String) (suiteName : String)
    (descriptions : List EndToEndDesc) (options : CompilationOptions) :
    List RegisteredTest :=
  match descriptions with
  | [] => []
  | d :: rest =>
      registerEndToEnd optionsName suiteName d options ++
        registerEndToEndSuite optionsName suiteName rest options

/-- Specification-side closed form of the registration of one descriptor,
following the spec's words: for each test (in order, indexed from 0) and for
each declared error-rate variant (in order, indexed from 0), or a single
exact case when none is declared, one registered case bound to the program
text, the test description, the variant-or-none and the merged options. -/
def registeredCases (optionsName : CompilationOptions → String) (suiteName : String)
    (desc : EndToEndDesc) (base : CompilationOptions) : List RegisteredTest :=
  let options := mergeDescOptions desc base
  (desc.tests.enum.map fun p =>
    if desc.test_error_rates.isEmpty then
      [registerOne suiteName (getTestName optionsName desc options p.1) (Nat.repr p.1)
          desc.program p.2 none options]
    else
      desc.test_error_rates.enum.map fun q =>
        registerOne suiteName
          (getTestName optionsName desc options p.1 ++ "_rate" ++ Nat.repr q.1)
          (Nat.repr p.1) desc.program p.2 (some q.2) options).flatten

/-- Clean recursive presentation of the decimal digit list of a natural
number, used to reason about the fuelled `Nat.toDigitsCore` from core. -/
def decDigits (n : Nat) : List Char :=
  if _h : n < 10 then [Nat.digitChar n]
  else decDigits (n / 10) ++ [Nat.digitChar (n % 10)]
decreasing_by
  exact Nat.div_lt_self (by omega) (by omega)

/-- Numeric value of a digit character. -/
def digitVal (c : Char) : Nat := c.toNat - 48

/-- Value of a digit list, most significant digit first. -/
def digitsToNat (l : List Char) : Nat :=
  l.foldl (fun acc c => acc * 10 + digitVal c) 0

/-- One external call performed by a running test case; the trace of these
events is the observable behaviour of the harness. -/
inductive Event
  | compileCall (program : String) (folder : String)
  | keysetCall (keysetDesc : Nat)
  | circuitCreateCall (keyset : Keyset) (programInfo : Nat) (libPath : String)
  | circuitCall (trial : Nat)
  | compareCall (idx : Nat)
  | deleteFolderCall (folder : String)
deriving DecidableEq

/-- The compilation result the harness reads: the keyset descriptor and
program info exposed by `getProgramInfo`, and the shared-library path. -/
structure Artifact where
  keysetDesc : Nat
  programInfo : Nat
  sharedLibPath : String
deriving DecidableEq

/-- The external collaborators of a test case.  `compile`, `getKeyset` and
`createCircuit` return `none` on failure; `call` is indexed by the invocation
number so that distinct trials may return distinct (noisy) results; `check`
models `checkResult` and returns `true` when the comparison reports an
error (a mismatch). -/
structure Env where
  compile : String → String → Option Artifact
  getKeyset : Nat → Option Keyset
  createCircuit : Keyset → Nat → String → Option Circuit
  call : Circuit → List Val → Nat → Option (List Val)
  check : Val → Val → Bool

/-- The state `SetUp` leaves behind on success: the constructed circuit and
the public arguments built from the inputs. -/
structure CaseState where
  circuit : Circuit
  args : List Val
deriving DecidableEq

/-- `EndToEndTest::SetUp` (lines 38 to 67): compile, retrieve the keyset,
create the circuit, build the arguments.  A failing step aborts the setup
(the gtest assertion macros return from `SetUp`), leaving no case state. -/
def setUp (env : Env) (program : String) (desc : TestDescription)
    (artifactFolder : String) : Option CaseState × List Event :=
  match env.compile program artifactFolder with
  | none => (none, [.compileCall program artifactFolder])
  | some compiled =>
      match env.getKeyset compiled.keysetDesc with
      | none =>
          (none, [.compileCall program artifactFolder, .keysetCall compiled.keysetDesc])
      | some keyset =>
          match env.createCircuit keyset compiled.programInfo compiled.sharedLibPath with
          | none =>
              (none,
                [.compileCall program artifactFolder, .keysetCall compiled.keysetDesc,
                  .circuitCreateCall keyset compiled.programInfo compiled.sharedLibPath])
          | some circuit =>
              (some ⟨circuit, desc.inputs⟩,
                [.compileCall program artifactFolder, .keysetCall compiled.keysetDesc,
                  .circuitCreateCall keyset compiled.programInfo compiled.sharedLibPath])

/-- `EndToEndTest::TearDown` (line 69): delete the artifact folder. -/
def tearDown (artifactFolder : String) : List Event :=
  [.deleteFolderCall artifactFolder]

/-- Outcome of a test body: pass, gtest failure, or a violated C `assert`. -/
inductive CaseOutcome
  | pass
  | fail
  | assertViolation
deriving DecidableEq

/-- The comparison loop of `testOnce` (lines 86 to 88): compare output `i` of
the result against expected output `i`; the assertion macro aborts the loop at
the first comparison that reports an error. -/
def compareAll (check : Val → Val → Bool) : List Val → List Val → Nat → Bool × List Event
  | [], _, _ => (true, [])
  | o :: os, result, i =>
      if check o (result.getD i 0) then (false, [.compareCall i])
      else
        let rest := compareAll check os result (i + 1)
        (rest.1, .compareCall i :: rest.2)

/-- `EndToEndTest::testOnce` (lines 79 to 89): invoke the circuit once and
compare every expected output positionally. -/
def testOnce (env : Env) (st : CaseState) (desc : TestDescription) :
    CaseOutcome × List Event :=
  match env.call st.circuit st.args 0 with
  | none => (.fail, [.circuitCall 0])
  | some result =>
      let checked := compareAll env.check desc.outputs result 0
      ((if checked.1 then .pass else .fail), .circuitCall 0 :: checked.2)

/-- Result of the trial loop of `testErrorRate`: the final mismatch count, or
an abort (a failed circuit invocation, or the violated single-output
`assert`). -/
inductive LoopResult
  | ok (nbError : Nat)
  | abortFail
  | abortAssert
deriving DecidableEq

/-- The trial loop of `testErrorRate` (lines 93 to 107): on trial `i`, invoke
the circuit; a failed invocation aborts; `assert(desc.outputs.size() == 1)`
must hold; compare expected output 0 against result 0 and increment the
mismatch counter when the comparison reports an error. -/
def errorRateLoop (env : Env) (circuit : Circuit) (args : List Val)
    (outputs : List Val) : Nat → Nat → Nat → LoopResult × List Event
  | _, 0, nbError => (.ok nbError, [])
  | i, n + 1, nbError =>
      match env.call circuit args i with
      | none => (.abortFail, [.circuitCall i])
      | some result =>
          if outputs.length = 1 then
            let nbError1 :=
              if env.check (outputs.getD 0 0) (result.getD 0 0) then nbError + 1
              else nbError
            let rest := errorRateLoop env circuit args outputs (i + 1) n nbError1
            (rest.1, .circuitCall i :: .compareCall 0 :: rest.2)
          else (.abortAssert, [.circuitCall i])

/-- `EndToEndTest::testErrorRate` (lines 91 to 113): run the trial loop for
`nb_repetition` trials, compute the rejection threshold once, and fail the
case exactly when the mismatch count exceeds it (`ASSERT_LE`). -/
def testErrorRate (env : Env) (st : CaseState) (desc : TestDescription)
    (rate : TestErrorRate) : CaseOutcome × List Event :=
  match errorRateLoop env st.circuit st.args desc.outputs 0 rate.nb_repetition 0 with
  | (.ok nbError, evs) =>
      ((if (nbError : ℚ) ≤ rate.too_high_error_count_threshold then .pass else .fail),
        evs)
  | (.abortFail, evs) => (.fail, evs)
  | (.abortAssert, evs) => (.assertViolation, evs)

/-- `EndToEndTest::TestBody` (lines 71 to 77): exact mode when no error rate
is attached, statistical mode otherwise. -/
def testBody (env : Env) (st : CaseState) (desc : TestDescription)
    (errorRate : Option TestErrorRate) : CaseOutcome × List Event :=
  match errorRate with
  | none => testOnce env st desc
  | some rate => testErrorRate env st desc rate

/-- The gtest lifecycle of one registered case: `SetUp`, then the body only
when the setup produced a state (a fatal assertion in `SetUp` skips the body),
then `TearDown` unconditionally. -/
def runTestCase (env : Env) (program : String) (desc : TestDescription)
    (errorRate : Option TestErrorRate) (artifactFolder : String) :
    CaseOutcome × List Event :=
  match setUp env program desc artifactFolder with
  | (none, evs) => (.fail, evs ++ tearDown artifactFolder)
  | (some st, evs) =>
      let body := testBody env st desc errorRate
      (body.1, evs ++ body.2 ++ tearDown artifactFolder)

/-- Projection extracting the trial number of a circuit invocation event. -/
def circuitTrial : Event → Option Nat
  | .circuitCall i => some i
  | _ => none

/-- Projection extracting the output index of a comparison event. -/
def compareIdx : Event → Option Nat
  | .compareCall i => some i
  | _ => none

/-- The mismatch count the spec expects after `n` trials: the number of trial
indices on which the single circuit output disagrees with the single expected
value. -/
def trialMismatches (env : Env) (circuit : Circuit) (args : List Val)
    (expected : Val) (n : Nat) : Nat :=
  (List.range n).countP fun k =>
    env.check expected (((env.call circuit args k).getD []).getD 0 0)

/-- Concrete environment used to exercise the theorems at explicit inputs:
compilation, keyset retrieval and circuit construction succeed, the circuit
returns `[5]` on trial 0 and `[4]` afterwards, and values are compared by
equality. -/
def envW : Env :=
  { compile := fun _ _ => some ⟨7, 3, "lib"⟩
    getKeyset := fun _ => some 1
    createCircuit := fun _ _ _ => some 2
    call := fun _ _ k => some [if k = 0 then 5 else 4]
    check := fun a b => a != b }

/-- Variant of `envW` whose compilation step fails. -/
def envFailW : Env :=
  { envW with compile := fun _ _ => none }

/-- Concrete case state for the witnesses. -/
def stW : CaseState := ⟨2, []⟩

/-- Concrete single-output test description for the witnesses. -/
def descW : TestDescription := ⟨[], [5]⟩

/-- Concrete error-rate variant for the witnesses. -/
def rateW : TestErrorRate := ⟨0, 3⟩

/-- Concrete baseline compilation options for the witnesses. -/
def baseW : CompilationOptions := ⟨⟨none, none, 0⟩, none⟩

/-- Descriptor with an error-rate variant and no descriptor-level `p_error`. -/
def descC2 : EndToEndDesc := ⟨"d", "p", none, none, 0, [⟨[], [0]⟩], [⟨0, 5⟩]⟩

/-- Descriptor that sets a descriptor-level `p_error`. -/
def descC2p : EndToEndDesc := ⟨"d", "p", some 0, none, 0, [⟨[], [0]⟩], []⟩

/-- Two descriptors sharing a description but holding distinct programs. -/
def descC3a : EndToEndDesc := ⟨"d", "prog1", none, none, 0, [⟨[], [0]⟩], []⟩

/-- Second descriptor with the same description and a different program. -/
def descC3b : EndToEndDesc := ⟨"d", "prog2", none, none, 0, [⟨[], [0]⟩], []⟩

/-- Constant options-name function for the concrete registrations. -/
def optionsNameW : CompilationOptions → String := fun _ => "o"

/-- Default registered test used with `List.getD`. -/
def dfltReg : RegisteredTest := ⟨"", "", "", "", ⟨[], []⟩, none, ⟨⟨none, none, 0⟩, none⟩⟩

end EndToEnd

namespace FHEModule

/-- The `MlirTypeOrError` struct of `FHEModule.cpp` (lines 25 to 28): the raw
type handle (the C `NULL` initial value is modelled by `none`) and the error
flag set by the diagnostic callback. -/
structure MlirTypeOrError where
  type : Option Nat
  isError : Bool
deriving DecidableEq

/-- The behaviour of the checked MLIR type constructors, opaque to the
binding: for each width, whether verification fails (in which case
`getChecked` invokes the emit-error callback) and, on success, the raw type
produced.  Separate oracles for the unsigned and the signed encrypted integer
types. -/
structure FHETypeEnv where
  eintVerifyFails : Nat → Bool
  esintVerifyFails : Nat → Bool
  eintRaw : Nat → Nat
  esintRaw : Nat → Nat

/-- `IntegerTypeGetChecked` (FHEModule.cpp lines 30 to 48): start with no
type and a clear error flag; `T::getChecked` invokes the callback exactly when
verification fails for the width, and the callback sets the flag; when the
flag is set return immediately, otherwise wrap the constructed type. -/
def IntegerTypeGetChecked (verifyFails : Nat → Bool) (raw : Nat → Nat)
    (width : Nat) : MlirTypeOrError :=
  let start : MlirTypeOrError := { type := none, isError := false }
  let afterCall :=
    if verifyFails width then { start with isError := true } else start
  if afterCall.isError then afterCall
  else { afterCall with type := some (raw width) }

/-- The `EncryptedIntegerType.get` classmethod (lines 55 to 67): call the
checked constructor; on error throw `std::invalid_argument`, otherwise return
the wrapped type. -/
def encryptedIntegerTypeGet (env : FHETypeEnv) (width : Nat) : Except String Nat :=
  let typeOrError := IntegerTypeGetChecked env.eintVerifyFails env.eintRaw width
  if typeOrError.isError then .error "cant create eint with the given width"
  else .ok (typeOrError.type.getD 0)

/-- The `EncryptedSignedIntegerType.get` classmethod (lines 69 to 82). -/
def encryptedSignedIntegerTypeGet (env : FHETypeEnv) (width : Nat) :
    Except String Nat :=
  let typeOrError := IntegerTypeGetChecked env.esintVerifyFails env.esintRaw width
  if typeOrError.isError then .error "cant create esint with the given width"
  else .ok (typeOrError.type.getD 0)

end FHEModule

namespace EndToEnd

theorem registerRates_eq (suiteName testName valueName program : String)
    (test : TestDescription) (options : CompilationOptions) (j : Nat)
    (rates : List TestErrorRate) :
    registerRates suiteName testName valueName program test options j rates =
      (rates.enumFrom j).map fun q =>
        registerOne suiteName (testName ++ "_rate" ++ Nat.repr q.1) valueName program
          test (some q.2) options := by
  induction rates generalizing j with
  | nil => rfl
  | cons r rest ih => simp [registerRates, List.enumFrom, ih]

theorem registerTests_eq (optionsName : CompilationOptions → String)
    (suiteName : String) (desc : EndToEndDesc) (options : CompilationOptions)
    (i : Nat) (ts : List TestDescription) :
    registerTests optionsName suiteName desc options i ts =
      ((ts.enumFrom i).map fun p =>
        if desc.test_error_rates.isEmpty then
          [registerOne suiteName (getTestName optionsName desc options p.1)
              (Nat.repr p.1) desc.program p.2 none options]
        else
          desc.test_error_rates.enum.map fun q =>
            registerOne suiteName
              (getTestName optionsName desc options p.1 ++ "_rate" ++ Nat.repr q.1)
              (Nat.repr p.1) desc.program p.2 (some q.2) options).flatten := by
  induction ts generalizing i with
  | nil => rfl
  | cons t rest ih =>
      by_cases hE : desc.test_error_rates.isEmpty <;>
        simp [registerTests, List.enumFrom, ih, hE, registerRates_eq, List.enum]

theorem registerEndToEnd_eq (optionsName : CompilationOptions → String)
    (suiteName : String) (desc : EndToEndDesc) (base : CompilationOptions) :
    registerEndToEnd optionsName suiteName desc base =
      registeredCases optionsName suiteName desc base := by
  simp [registerEndToEnd, registeredCases, registerTests_eq, List.enum]

theorem sum_map_const {α : Type} (l : List α) (c : Nat) :
    (l.map fun _ => c).sum = l.length * c := by
  induction l with
  | nil => simp
  | cons a l ih => simp [ih, Nat.succ_mul, Nat.add_comm]

theorem toDigitsCore_acc (fuel n : Nat) (ds : List Char) :
    Nat.toDigitsCore 10 fuel n ds = Nat.toDigitsCore 10 fuel n [] ++ ds := by
  induction fuel generalizing n ds with
  | zero => rfl
  | succ fuel ih =>
      simp only [Nat.toDigitsCore]
      by_cases h : n / 10 = 0
      · simp [h]
      · simp only [h, if_false]
        rw [ih (n / 10) [Nat.digitChar (n % 10)], ih (n / 10) (Nat.digitChar (n % 10) :: ds),
          List.append_assoc]
        rfl

theorem toDigitsCore_eq_decDigits (fuel n : Nat) (h : n < fuel) :
    Nat.toDigitsCore 10 fuel n [] = decDigits n := by
  induction fuel generalizing n with
  | zero => omega
  | succ fuel ih =>
      simp only [Nat.toDigitsCore]
      by_cases h10 : n / 10 = 0
      · have hn : n < 10 := by omega
        have hm : n % 10 = n := Nat.mod_eq_of_lt hn
        rw [decDigits, dif_pos hn]
        simp [h10, hm]
      · have hn : ¬n < 10 := by omega
        have hlt : n / 10 < fuel := by
          have := Nat.div_lt_self (by omega : 0 < n) (by omega : 1 < 10)
          omega
        rw [decDigits, dif_neg hn]
        simp only [h10, if_false]
        rw [toDigitsCore_acc, ih (n / 10) hlt]

theorem repr_eq_decDigits (n : Nat) :
    Nat.repr n = (decDigits n).asString := by
  rw [Nat.repr, Nat.toDigits, toDigitsCore_eq_decDigits (n + 1) n (Nat.lt_succ_self n)]

theorem digitVal_digitChar (d : Nat) (h : d < 10) :
    digitVal (Nat.digitChar d) = d := by
  interval_cases d <;> rfl

theorem digitChar_isDigit (d : Nat) (h : d < 10) :
    (Nat.digitChar d).isDigit = true := by
  interval_cases d <;> rfl

theorem digitsToNat_append_digit (xs : List Char) (c : Char) :
    digitsToNat (xs ++ [c]) = digitsToNat xs * 10 + digitVal c := by
  simp [digitsToNat, List.foldl_append]

theorem digitsToNat_decDigits (n : Nat) :
    digitsToNat (decDigits n) = n := by
  induction n using Nat.strong_induction_on with
  | _ n ih =>
      by_cases h : n < 10
      · rw [decDigits, dif_pos h]
        simp [digitsToNat, digitVal_digitChar n h]
      · rw [decDigits, dif_neg h, digitsToNat_append_digit,
          ih (n / 10) (Nat.div_lt_self (by omega) (by omega)),
          digitVal_digitChar (n % 10) (Nat.mod_lt n (by omega))]
        omega

theorem decDigits_isDigit (n : Nat) :
    ∀ c ∈ decDigits n, c.isDigit = true := by
  induction n using Nat.strong_induction_on with
  | _ n ih =>
      by_cases h : n < 10
      · rw [decDigits, dif_pos h]
        intro c hc
        simp only [List.mem_singleton] at hc
        exact hc ▸ digitChar_isDigit n h
      · rw [decDigits, dif_neg h]
        intro c hc
        rcases List.mem_append.mp hc with hc | hc
        · exact ih (n / 10) (Nat.div_lt_self (by omega) (by omega)) c hc
        · simp only [List.mem_singleton] at hc
          exact hc ▸ digitChar_isDigit (n % 10) (Nat.mod_lt n (by omega))

theorem repr_data (n : Nat) : (Nat.repr n).data = decDigits n := by
  rw [repr_eq_decDigits]
  rfl

theorem repr_inj {m n : Nat} (h : Nat.repr m = Nat.repr n) : m = n := by
  have hd : decDigits m = decDigits n := by
    have := congrArg String.data h
    rwa [repr_data, repr_data] at this
  have := congrArg digitsToNat hd
  rwa [digitsToNat_decDigits, digitsToNat_decDigits] at this

theorem repr_no_char {n : Nat} {c : Char} (hc : c ∈ (Nat.repr n).data)
    (h : c.isDigit = false) : False := by
  rw [repr_data] at hc
  have := decDigits_isDigit n c hc
  rw [h] at this
  exact Bool.false_ne_true this

theorem append_marker_inj {xs ys zs ws : List Char} {m : Char}
    (hx : ∀ c ∈ xs, c ≠ m) (hy : ∀ c ∈ ys, c ≠ m)
    (h : xs ++ m :: zs = ys ++ m :: ws) : xs = ys ∧ zs = ws := by
  induction xs generalizing ys with
  | nil =>
      cases ys with
      | nil => simpa using h
      | cons y ys =>
          exfalso
          simp only [List.nil_append, List.cons_append, List.cons.injEq] at h
          exact hy y (List.mem_cons_self y ys) h.1.symm
  | cons x xs ih =>
      cases ys with
      | nil =>
          exfalso
          simp only [List.cons_append, List.nil_append, List.cons.injEq] at h
          exact hx x (List.mem_cons_self x xs) h.1
      | cons y ys =>
          simp only [List.cons_append, List.cons.injEq] at h
          obtain ⟨hxy, hrest⟩ := h
          have := ih (fun c hc => hx c (List.mem_cons_of_mem x hc))
            (fun c hc => hy c (List.mem_cons_of_mem y hc)) hrest
          exact ⟨by rw [hxy, this.1], this.2⟩

theorem removeDashes_append (s t : String) :
    removeDashes (s ++ t) = removeDashes s ++ removeDashes t := by
  simp only [removeDashes]
  have : (s ++ t).data = s.data ++ t.data := String.data_append s t
  rw [this, List.filter_append]
  rfl

theorem removeDashes_repr (n : Nat) :
    removeDashes (Nat.repr n) = Nat.repr n := by
  simp only [removeDashes]
  have hf : (Nat.repr n).data.filter (fun c => c ≠ '-') = (Nat.repr n).data := by
    rw [List.filter_eq_self]
    intro c hc
    simp only [ne_eq, decide_eq_true_eq]
    intro hdash
    exact repr_no_char hc (by rw [hdash]; rfl)
  rw [hf]

theorem getTestName_eq (optionsName : CompilationOptions → String)
    (desc : EndToEndDesc) (options : CompilationOptions) (i : Nat) :
    getTestName optionsName desc options i =
      removeDashes (optionsName options ++ "." ++ desc.description ++ ".") ++
        Nat.repr i := by
  simp only [getTestName]
  rw [show optionsName options ++ "." ++ desc.description ++ "." ++ Nat.repr i =
      (optionsName options ++ "." ++ desc.description ++ ".") ++ Nat.repr i from rfl,
    removeDashes_append, removeDashes_repr]

theorem string_append_right_inj {p s t : String} (h : p ++ s = p ++ t) : s = t := by
  have hd := congrArg String.data h
  rw [String.data_append, String.data_append] at hd
  exact String.ext (List.append_cancel_left hd)

theorem repr_ne_dash {n : Nat} {c : Char} (hc : c ∈ (Nat.repr n).data) : c ≠ '_' := by
  intro hdash
  exact repr_no_char hc (by rw [hdash]; rfl)

theorem exactName_inj (p : String) {i j : Nat}
    (h : p ++ Nat.repr i = p ++ Nat.repr j) : i = j :=
  repr_inj (string_append_right_inj h)

theorem rateName_inj (p : String) {i1 j1 i2 j2 : Nat}
    (h : p ++ Nat.repr i1 ++ "_rate" ++ Nat.repr j1 =
         p ++ Nat.repr i2 ++ "_rate" ++ Nat.repr j2) : i1 = i2 ∧ j1 = j2 := by
  have h2 : p ++ (Nat.repr i1 ++ "_rate" ++ Nat.repr j1) =
      p ++ (Nat.repr i2 ++ "_rate" ++ Nat.repr j2) := by
    rw [← String.append_assoc, ← String.append_assoc, ← String.append_assoc,
      ← String.append_assoc]
    exact h
  have h3 := congrArg String.data (string_append_right_inj h2)
  simp only [String.data_append] at h3
  have hsplit : (Nat.repr i1).data ++ '_' ::
      ('r' :: 'a' :: 't' :: 'e' :: (Nat.repr j1).data) =
      (Nat.repr i2).data ++ '_' ::
      ('r' :: 'a' :: 't' :: 'e' :: (Nat.repr j2).data) := by
    simpa using h3
  have := append_marker_inj (fun c hc => repr_ne_dash hc)
    (fun c hc => repr_ne_dash hc) hsplit
  obtain ⟨hi, hj⟩ := this
  refine ⟨repr_inj (String.ext hi), repr_inj (String.ext ?_)⟩
  simpa using hj

theorem enum_map_fst_comp {α β : Type} (l : List α) (f : Nat → β) :
    l.enum.map (fun p => f p.1) = (List.range l.length).map f := by
  rw [show (fun p : Nat × α => f p.1) = f ∘ Prod.fst from rfl, ← List.map_map,
    List.enum_map_fst]

theorem flatten_map_singleton {α β : Type} (l : List α) (g : α → β) :
    (l.map fun x => [g x]).flatten = l.map g := by
  induction l with
  | nil => rfl
  | cons a l ih => simp [ih]

theorem registerEndToEnd_names (optionsName : CompilationOptions → String)
    (suiteName : String) (desc : EndToEndDesc) (base : CompilationOptions) :
    (registerEndToEnd optionsName suiteName desc base).map (fun r => r.testName) =
      if desc.test_error_rates.isEmpty then
        (List.range desc.tests.length).map fun i =>
          removeDashes (optionsName (mergeDescOptions desc base) ++ "." ++
            desc.description ++ ".") ++ Nat.repr i
      else
        ((List.range desc.tests.length).map fun i =>
          (List.range desc.test_error_rates.length).map fun j =>
            removeDashes (optionsName (mergeDescOptions desc base) ++ "." ++
              desc.description ++ ".") ++ Nat.repr i ++ "_rate" ++ Nat.repr j).flatten := by
  rw [registerEndToEnd_eq]
  by_cases hE : desc.test_error_rates.isEmpty
  · rw [if_pos hE]
    simp only [registeredCases, hE, if_true, List.map_flatten, List.map_map]
    rw [show ((List.map fun r : RegisteredTest => r.testName) ∘
        fun p : Nat × TestDescription =>
          [registerOne suiteName
            (getTestName optionsName desc (mergeDescOptions desc base) p.1)
            (Nat.repr p.1) desc.program p.2 none (mergeDescOptions desc base)]) =
        fun p : Nat × TestDescription =>
          [removeDashes (optionsName (mergeDescOptions desc base) ++ "." ++
            desc.description ++ ".") ++ Nat.repr p.1] from by
      funext p
      simp [registerOne, getTestName_eq]]
    rw [flatten_map_singleton desc.tests.enum fun p =>
      removeDashes (optionsName (mergeDescOptions desc base) ++ "." ++
        desc.description ++ ".") ++ Nat.repr p.1]
    exact enum_map_fst_comp desc.tests fun i =>
      removeDashes (optionsName (mergeDescOptions desc base) ++ "." ++
        desc.description ++ ".") ++ Nat.repr i
  · rw [if_neg hE]
    simp only [registeredCases, hE, Bool.false_eq_true, if_false, List.map_flatten,
      List.map_map]
    rw [show ((List.map fun r : RegisteredTest => r.testName) ∘
        fun p : Nat × TestDescription =>
          desc.test_error_rates.enum.map fun q =>
            registerOne suiteName
              (getTestName optionsName desc (mergeDescOptions desc base) p.1 ++
                "_rate" ++ Nat.repr q.1)
              (Nat.repr p.1) desc.program p.2 (some q.2) (mergeDescOptions desc base)) =
        fun p : Nat × TestDescription =>
          (List.range desc.test_error_rates.length).map fun j =>
            removeDashes (optionsName (mergeDescOptions desc base) ++ "." ++
              desc.description ++ ".") ++ Nat.repr p.1 ++ "_rate" ++ Nat.repr j from by
      funext p
      simp only [Function.comp, List.map_map]
      rw [← enum_map_fst_comp desc.test_error_rates fun j =>
        removeDashes (optionsName (mergeDescOptions desc base) ++ "." ++
          desc.description ++ ".") ++ Nat.repr p.1 ++ "_rate" ++ Nat.repr j]
      congr 1
      funext q
      simp [registerOne, getTestName_eq]]
    congr 1
    exact enum_map_fst_comp desc.tests fun i =>
      (List.range desc.test_error_rates.length).map fun j =>
        removeDashes (optionsName (mergeDescOptions desc base) ++ "." ++
          desc.description ++ ".") ++ Nat.repr i ++ "_rate" ++ Nat.repr j

theorem nodup_exactNames (q : String) (k : Nat) :
    ((List.range k).map fun i => q ++ Nat.repr i).Nodup :=
  List.Nodup.map (fun _ _ h => exactName_inj q h) (List.nodup_range k)

theorem nodup_rateNames (q : String) (k m : Nat) :
    (((List.range k).map fun i => (List.range m).map fun j =>
        q ++ Nat.repr i ++ "_rate" ++ Nat.repr j).flatten).Nodup := by
  rw [List.nodup_flatten]
  constructor
  · intro l hl
    rcases List.mem_map.mp hl with ⟨i, _, rfl⟩
    exact List.Nodup.map (fun _ _ h => (rateName_inj q h).2) (List.nodup_range m)
  · rw [List.pairwise_map]
    refine (List.pairwise_lt_range k).imp ?_
    intro a b hab x hxa hxb
    rcases List.mem_map.mp hxa with ⟨j1, _, rfl⟩
    rcases List.mem_map.mp hxb with ⟨j2, _, hEq⟩
    exact absurd (rateName_inj q hEq.symm).1 (Nat.ne_of_lt hab)

theorem registerEndToEnd_names_nodup (optionsName : CompilationOptions → String)
    (suiteName : String) (desc : EndToEndDesc) (base : CompilationOptions) :
    ((registerEndToEnd optionsName suiteName desc base).map fun r => r.testName).Nodup := by
  rw [registerEndToEnd_names]
  by_cases hE : desc.test_error_rates.isEmpty
  · rw [if_pos hE]
    exact nodup_exactNames _ _
  · rw [if_neg hE]
    exact nodup_rateNames _ _ _

theorem errorRateLoop_ok (env : Env) (circuit : Circuit) (args : List Val)
    (outputs : List Val) (hout : outputs.length = 1) (n : Nat) :
    ∀ (i acc : Nat), (∀ k, k < n → (env.call circuit args (i + k)).isSome) →
      errorRateLoop env circuit args outputs i n acc =
        (LoopResult.ok (acc + (List.range n).countP fun k =>
            env.check (outputs.getD 0 0)
              (((env.call circuit args (i + k)).getD []).getD 0 0)),
          ((List.range n).map fun k =>
            [Event.circuitCall (i + k), Event.compareCall 0]).flatten) := by
  induction n with
  | zero =>
      intro i acc _
      simp [errorRateLoop]
  | succ n ih =>
      intro i acc hcall
      have h0 : (env.call circuit args i).isSome := by
        have := hcall 0 (Nat.succ_pos n)
        simpa using this
      obtain ⟨res, hres⟩ := Option.isSome_iff_exists.mp h0
      have hshift : ∀ k, k < n → (env.call circuit args (i + 1 + k)).isSome := by
        intro k hk
        have := hcall (k + 1) (by omega)
        have harg : i + (k + 1) = i + 1 + k := by omega
        rwa [harg] at this
      have hrec := ih (i + 1) (if env.check (outputs.getD 0 0) (res.getD 0 0)
        then acc + 1 else acc) hshift
      simp only [errorRateLoop, hres, hout, if_true, if_pos]
      rw [hrec]
      have hfun : (fun k => env.check (outputs.getD 0 0)
          (((env.call circuit args (i + 1 + k)).getD []).getD 0 0)) =
          (fun k => env.check (outputs.getD 0 0)
            (((env.call circuit args (i + (k + 1))).getD []).getD 0 0)) := by
        funext k
        have harg : i + 1 + k = i + (k + 1) := by omega
        rw [harg]
      have hfun2 : (fun k => [Event.circuitCall (i + 1 + k), Event.compareCall 0]) =
          (fun k => [Event.circuitCall (i + (k + 1)), Event.compareCall 0]) := by
        funext k
        have harg : i + 1 + k = i + (k + 1) := by omega
        rw [harg]
      rw [hfun, hfun2]
      rw [Prod.mk.injEq]
      dsimp only
      constructor
      · rw [List.range_succ_eq_map, List.countP_cons, List.countP_map]
        simp only [Function.comp_def, Nat.add_zero, Nat.succ_eq_add_one, hres,
          Option.getD_some, LoopResult.ok.injEq]
        by_cases hc : env.check (outputs.getD 0 0) (res.getD 0 0) <;>
          simp only [hc, if_true, Bool.false_eq_true, if_false] <;> omega
      · rw [List.range_succ_eq_map, List.map_cons, List.map_map]
        simp only [Function.comp, Nat.add_zero, Nat.succ_eq_add_one,
          List.flatten_cons]
        rfl

theorem errorRateLoop_single_output (env : Env) (circuit : Circuit)
    (args : List Val) (outputs : List Val) (hout : outputs.length = 1) (n : Nat) :
    ∀ (i acc : Nat),
      (errorRateLoop env circuit args outputs i n acc).1 ≠ LoopResult.abortAssert
      ∧ ∀ e ∈ (errorRateLoop env circuit args outputs i n acc).2,
          compareIdx e = none ∨ compareIdx e = some 0 := by
  induction n with
  | zero =>
      intro i acc
      simp [errorRateLoop]
  | succ n ih =>
      intro i acc
      cases hres : env.call circuit args i with
      | none =>
          simp only [errorRateLoop, hres]
          refine ⟨by simp, ?_⟩
          intro e he
          simp only [List.mem_singleton] at he
          subst he
          exact Or.inl rfl
      | some res =>
          simp only [errorRateLoop, hres, hout, if_true, if_pos]
          refine ⟨(ih (i + 1) _).1, ?_⟩
          intro e he
          rcases he with _ | ⟨_, (_ | ⟨_, hmem⟩)⟩
          · exact Or.inl rfl
          · exact Or.inr rfl
          · exact (ih (i + 1) _).2 e hmem

theorem filterMap_circuitTrial (l : List Nat) :
    ((l.map fun k => [Event.circuitCall k, Event.compareCall 0]).flatten).filterMap
      circuitTrial = l := by
  induction l with
  | nil => rfl
  | cons a l ih => simp [circuitTrial, ih]

theorem compareAll_spec (check : Val → Val → Bool) (result : List Val) :
    ∀ (outputs : List Val) (i : Nat),
      ((compareAll check outputs result i).1 = true ↔
        ∀ j, j < outputs.length →
          check (outputs.getD j 0) (result.getD (i + j) 0) = false)
      ∧ ∀ e ∈ (compareAll check outputs result i).2, ∃ j, e = Event.compareCall j := by
  intro outputs
  induction outputs with
  | nil =>
      intro i
      simp [compareAll]
  | cons o os ih =>
      intro i
      by_cases hc : check o (result.getD i 0)
      · simp only [compareAll, hc, if_true, if_pos]
        constructor
        · constructor
          · intro h
            exact absurd h (by simp)
          · intro h
            have := h 0 (by simp)
            simp only [List.getD_cons_zero, Nat.add_zero] at this
            rw [this] at hc
            exact absurd hc (by simp)
        · intro e he
          simp only [List.mem_singleton] at he
          exact ⟨i, he⟩
      · simp only [compareAll, hc, Bool.false_eq_true, if_false]
        constructor
        · rw [(ih (i + 1)).1]
          constructor
          · intro h j hj
            cases j with
            | zero =>
                simpa [Bool.not_eq_true] using (Bool.not_eq_true _).mp hc
            | succ j =>
                have := h j (by simpa using hj)
                have harg : i + 1 + j = i + (j + 1) := by omega
                rwa [harg] at this
          · intro h j hj
            have := h (j + 1) (by simpa using hj)
            have harg : i + (j + 1) = i + 1 + j := by omega
            rwa [harg] at this
        · intro e he
          rcases he with _ | ⟨_, hmem⟩
          · exact ⟨i, rfl⟩
          · exact (ih (i + 1)).2 e hmem

/-- C1: in statistical mode, for a `TestErrorRate` with repetition count `n`
whose trials all return a value, the harness invokes the circuit exactly `n`
times sequentially (the extracted trial numbers are `0, 1, ..., n-1` in
order), counts exactly the trials on which the single output disagrees with
the single expected value, and fails the case if and only if that count
exceeds the threshold `t(n, global_p_error)`, which is computed once after
the loop. -/
theorem statistical_mode_trials_and_threshold (env : Env) (st : CaseState)
    (desc : TestDescription) (rate : TestErrorRate)
    (hout : desc.outputs.length = 1)
    (hcalls : ∀ k, k < rate.nb_repetition → (env.call st.circuit st.args k).isSome) :
    (testErrorRate env st desc rate).2.filterMap circuitTrial =
        List.range rate.nb_repetition
    ∧ (testErrorRate env st desc rate).1 =
        (if (trialMismatches env st.circuit st.args (desc.outputs.getD 0 0)
              rate.nb_repetition : ℚ) ≤ rate.too_high_error_count_threshold
         then CaseOutcome.pass else CaseOutcome.fail) := by
  have hloop := errorRateLoop_ok env st.circuit st.args desc.outputs hout
    rate.nb_repetition 0 0 (by intro k hk; simpa using hcalls k hk)
  simp only [Nat.zero_add] at hloop
  have ht : testErrorRate env st desc rate =
      ((if (trialMismatches env st.circuit st.args (desc.outputs.getD 0 0)
            rate.nb_repetition : ℚ) ≤ rate.too_high_error_count_threshold
        then CaseOutcome.pass else CaseOutcome.fail),
        ((List.range rate.nb_repetition).map fun k =>
          [Event.circuitCall k, Event.compareCall 0]).flatten) := by
    simp only [testErrorRate, hloop, Nat.zero_add, trialMismatches]
  rw [ht]
  exact ⟨filterMap_circuitTrial _, rfl⟩

theorem statistical_mode_trials_and_threshold_witness :
    descW.outputs.length = 1
    ∧ (∀ k, k < rateW.nb_repetition → (envW.call stW.circuit stW.args k).isSome)
    ∧ ((testErrorRate envW stW descW rateW).2.filterMap circuitTrial =
        List.range rateW.nb_repetition
      ∧ (testErrorRate envW stW descW rateW).1 =
        (if (trialMismatches envW stW.circuit stW.args (descW.outputs.getD 0 0)
              rateW.nb_repetition : ℚ) ≤ rateW.too_high_error_count_threshold
         then CaseOutcome.pass else CaseOutcome.fail)) :=
  ⟨by decide, by decide,
    statistical_mode_trials_and_threshold envW stW descW rateW (by decide) (by decide)⟩

/-- C2 counterexample: merging a descriptor with no descriptor-level
`p_error` and then applying an error-rate variant (as the `EndToEndTest`
constructor does) leaves BOTH `p_error` and `global_p_error` set, so mutual
exclusivity does not hold at every later adjustment point. -/
theorem options_exclusivity_counterexample :
    ((applyErrorRate (some ⟨0, 5⟩)
        (mergeDescOptions descC2 baseW)).optimizerConfig.p_error).isSome = true
    ∧ ((applyErrorRate (some ⟨0, 5⟩)
        (mergeDescOptions descC2 baseW)).optimizerConfig.global_p_error).isSome = true :=
  ⟨rfl, rfl⟩

/-- C2 (amended): when the descriptor sets `p_error`, the merge into any
baseline sets `p_error` and resets `global_p_error` to unset (mutual
exclusivity holds post-merge); applying an error-rate variant afterwards,
however, sets BOTH fields to the variant target. -/
theorem merge_p_error_exclusive (desc : EndToEndDesc) (base : CompilationOptions)
    (rate : TestErrorRate) (pe : ℚ) (h : desc.p_error = some pe) :
    (mergeDescOptions desc base).optimizerConfig.p_error = some pe
    ∧ (mergeDescOptions desc base).optimizerConfig.global_p_error = none
    ∧ (applyErrorRate (some rate)
        (mergeDescOptions desc base)).optimizerConfig.p_error = some rate.global_p_error
    ∧ (applyErrorRate (some rate)
        (mergeDescOptions desc base)).optimizerConfig.global_p_error
        = some rate.global_p_error := by
  cases hv : desc.v0Constraint <;> simp [mergeDescOptions, applyErrorRate, h, hv]

theorem merge_p_error_exclusive_witness :
    descC2p.p_error = some 0
    ∧ ((mergeDescOptions descC2p baseW).optimizerConfig.p_error = some 0
      ∧ (mergeDescOptions descC2p baseW).optimizerConfig.global_p_error = none
      ∧ (applyErrorRate (some ⟨0, 5⟩)
          (mergeDescOptions descC2p baseW)).optimizerConfig.p_error =
          some (⟨0, 5⟩ : TestErrorRate).global_p_error
      ∧ (applyErrorRate (some ⟨0, 5⟩)
          (mergeDescOptions descC2p baseW)).optimizerConfig.global_p_error =
          some (⟨0, 5⟩ : TestErrorRate).global_p_error) :=
  ⟨rfl, merge_p_error_exclusive descC2p baseW ⟨0, 5⟩ 0 rfl⟩

/-- C3 counterexample: two descriptors of one suite sharing the description
and the merged options but holding distinct programs receive the same
synthesized name for their first test case, so the name is not injective
over (program, test index, variant index) triples within one suite. -/
theorem name_injectivity_counterexample :
    ((registerEndToEndSuite optionsNameW "suite" [descC3a, descC3b] baseW).getD 0
        dfltReg).testName =
      ((registerEndToEndSuite optionsNameW "suite" [descC3a, descC3b] baseW).getD 1
        dfltReg).testName
    ∧ ((registerEndToEndSuite optionsNameW "suite" [descC3a, descC3b] baseW).getD 0
        dfltReg).program ≠
      ((registerEndToEndSuite optionsNameW "suite" [descC3a, descC3b] baseW).getD 1
        dfltReg).program := by
  decide

/-- C3 (amended): within one suite, the names synthesized for the test cases
of a SINGLE program descriptor are pairwise distinct over (test index,
variant index); names across descriptors that share the description and the
merged-options fingerprint can collide. -/
theorem registered_names_pairwise_distinct (optionsName : CompilationOptions → String)
    (suiteName : String) (desc : EndToEndDesc) (base : CompilationOptions) :
    (registerEndToEnd optionsName suiteName desc base).Pairwise
      (fun a b => a.testName ≠ b.testName) :=
  List.pairwise_map.mp (registerEndToEnd_names_nodup optionsName suiteName desc base)

/-- C4: when compilation fails during setup, the failure is fatal to the one
case: the whole run performs exactly one compile call and no keyset lookup,
no circuit construction and no circuit invocation, and teardown still
deletes the temp artifact folder exactly once. -/
theorem compile_failure_fatal_no_retry (env : Env) (program : String)
    (desc : TestDescription) (errorRate : Option TestErrorRate) (folder : String)
    (h : env.compile program folder = none) :
    runTestCase env program desc errorRate folder =
      (CaseOutcome.fail,
        [Event.compileCall program folder, Event.deleteFolderCall folder]) := by
  simp [runTestCase, setUp, h, tearDown]

theorem compile_failure_fatal_no_retry_witness :
    envFailW.compile "p" "f" = none
    ∧ runTestCase envFailW "p" descW none "f" =
        (CaseOutcome.fail, [Event.compileCall "p" "f", Event.deleteFolderCall "f"]) :=
  ⟨rfl, compile_failure_fatal_no_retry envFailW "p" descW none "f" rfl⟩

/-- C5: in exact mode (no error-rate variant) with a successful invocation,
the circuit is invoked exactly once and the case passes if and only if every
expected output agrees positionally with the corresponding result; any single
mismatch fails the case, with no repetition and no statistical tolerance. -/
theorem exact_mode_single_invocation (env : Env) (st : CaseState)
    (desc : TestDescription) (result : List Val)
    (h : env.call st.circuit st.args 0 = some result) :
    ((testOnce env st desc).2.countP fun e => (circuitTrial e).isSome) = 1
    ∧ ((testOnce env st desc).1 = CaseOutcome.pass ↔
        ∀ j, j < desc.outputs.length →
          env.check (desc.outputs.getD j 0) (result.getD j 0) = false) := by
  have hc := compareAll_spec env.check result desc.outputs 0
  have ht : testOnce env st desc =
      ((if (compareAll env.check desc.outputs result 0).1 then CaseOutcome.pass
        else CaseOutcome.fail),
        Event.circuitCall 0 :: (compareAll env.check desc.outputs result 0).2) := by
    simp only [testOnce, h]
  rw [ht]
  constructor
  · have hrest : ((compareAll env.check desc.outputs result 0).2.countP
        fun e => (circuitTrial e).isSome) = 0 := by
      rw [List.countP_eq_zero]
      intro e he
      rcases hc.2 e he with ⟨j, rfl⟩
      simp [circuitTrial]
    rw [List.countP_cons, hrest]
    simp [circuitTrial]
  · have hiff : ((if (compareAll env.check desc.outputs result 0).1 then
        CaseOutcome.pass else CaseOutcome.fail) = CaseOutcome.pass) ↔
        (compareAll env.check desc.outputs result 0).1 = true := by
      cases hb : (compareAll env.check desc.outputs result 0).1 <;> simp [hb]
    rw [hiff, hc.1]
    constructor
    · intro hp j hj
      have := hp j hj
      simpa using this
    · intro hp j hj
      have := hp j hj
      simpa using this

theorem exact_mode_single_invocation_witness :
    envW.call stW.circuit stW.args 0 = some [5]
    ∧ (((testOnce envW stW descW).2.countP fun e => (circuitTrial e).isSome) = 1
      ∧ ((testOnce envW stW descW).1 = CaseOutcome.pass ↔
          ∀ j, j < descW.outputs.length →
            envW.check (descW.outputs.getD j 0) ([5].getD j 0) = false)) :=
  ⟨rfl, exact_mode_single_invocation envW stW descW [5] rfl⟩

/-- C6: registering a descriptor with `k` tests and `m` declared error-rate
variants produces exactly `k * m` cases when `m > 0` and exactly `k`
exact-mode cases when `m = 0`; the registered list equals the closed form
binding every case to the program text, its test description, its
variant-or-none and the merged options. -/
theorem registration_count_and_binding (optionsName : CompilationOptions → String)
    (suiteName : String) (desc : EndToEndDesc) (base : CompilationOptions) :
    (registerEndToEnd optionsName suiteName desc base).length =
      (if desc.test_error_rates.isEmpty then desc.tests.length
       else desc.tests.length * desc.test_error_rates.length)
    ∧ registerEndToEnd optionsName suiteName desc base =
        registeredCases optionsName suiteName desc base := by
  refine ⟨?_, registerEndToEnd_eq optionsName suiteName desc base⟩
  rw [registerEndToEnd_eq]
  by_cases hE : desc.test_error_rates.isEmpty
  · rw [if_pos hE]
    simp only [registeredCases, hE, if_true, List.length_flatten, List.map_map,
      Function.comp_def, List.length_cons, List.length_nil, Nat.zero_add]
    rw [sum_map_const, List.enum_length, Nat.mul_one]
  · rw [if_neg hE]
    simp only [registeredCases, hE, Bool.false_eq_true, if_false,
      List.length_flatten, List.map_map, Function.comp_def, List.length_map,
      List.enum_length]
    rw [sum_map_const, List.enum_length]

/-- C7: registering a suite is a pure transformation of the descriptor data:
the output is the concatenation, in input order, of the per-descriptor
registrations, each of which lists tests in input order and variants in input
order; no compilation and no execution occur (the output only records the
data the lazily constructed cases are bound to). -/
theorem suite_registration_order (optionsName : CompilationOptions → String)
    (suiteName : String) (descs : List EndToEndDesc) (base : CompilationOptions) :
    registerEndToEndSuite optionsName suiteName descs base =
      (descs.map fun d => registeredCases optionsName suiteName d base).flatten := by
  induction descs with
  | nil => rfl
  | cons d rest ih =>
      simp only [registerEndToEndSuite, List.map_cons, List.flatten_cons, ih,
        registerEndToEnd_eq]

/-- C8: for a fixed non-negative `global_p_error`, the rejection threshold is
monotonically non-decreasing in the repetition count. -/
theorem threshold_monotone (p : ℚ) (hp : 0 ≤ p) (n1 n2 : Nat) (h : n1 ≤ n2) :
    TestErrorRate.too_high_error_count_threshold ⟨p, n1⟩ ≤
      TestErrorRate.too_high_error_count_threshold ⟨p, n2⟩ := by
  unfold TestErrorRate.too_high_error_count_threshold
  have h1 : (n1 : ℚ) * p ≤ (n2 : ℚ) * p :=
    mul_le_mul_of_nonneg_right (by exact_mod_cast h) hp
  have h2 : ((Nat.sqrt n1 : Nat) : ℚ) ≤ ((Nat.sqrt n2 : Nat) : ℚ) := by
    exact_mod_cast Nat.sqrt_le_sqrt h
  linarith

theorem threshold_monotone_witness :
    (0 : ℚ) ≤ 0 ∧ 4 ≤ 9
    ∧ TestErrorRate.too_high_error_count_threshold ⟨0, 4⟩ ≤
        TestErrorRate.too_high_error_count_threshold ⟨0, 9⟩ :=
  ⟨le_rfl, by decide, threshold_monotone 0 le_rfl 4 9 (by decide)⟩

/-- C9: statistical evaluation is constrained to single-output test
descriptions; under that precondition the single-output assertion inside the
trial loop never fires and the only output index ever compared is 0. -/
theorem statistical_mode_single_output_assert (env : Env) (st : CaseState)
    (desc : TestDescription) (rate : TestErrorRate)
    (hout : desc.outputs.length = 1) :
    (testErrorRate env st desc rate).1 ≠ CaseOutcome.assertViolation
    ∧ ∀ e ∈ (testErrorRate env st desc rate).2,
        compareIdx e = none ∨ compareIdx e = some 0 := by
  have hloop := errorRateLoop_single_output env st.circuit st.args desc.outputs hout
    rate.nb_repetition 0 0
  rcases hres : errorRateLoop env st.circuit st.args desc.outputs 0 rate.nb_repetition 0
    with ⟨lr, evs⟩
  rw [hres] at hloop
  simp only [testErrorRate, hres]
  cases lr with
  | ok nbError =>
      refine ⟨?_, hloop.2⟩
      by_cases hle : ((nbError : ℚ) ≤ rate.too_high_error_count_threshold) <;>
        simp [hle]
  | abortFail => exact ⟨by simp, hloop.2⟩
  | abortAssert => exact absurd rfl hloop.1

theorem statistical_mode_single_output_assert_witness :
    descW.outputs.length = 1
    ∧ ((testErrorRate envW stW descW rateW).1 ≠ CaseOutcome.assertViolation
      ∧ ∀ e ∈ (testErrorRate envW stW descW rateW).2,
          compareIdx e = none ∨ compareIdx e = some 0) :=
  ⟨by decide, statistical_mode_single_output_assert envW stW descW rateW (by decide)⟩

end EndToEnd

namespace FHEModule

/-- C10: for every context behaviour and width, `EncryptedIntegerType.get`
and `EncryptedSignedIntegerType.get` throw `std::invalid_argument` exactly
when the checked MLIR type construction reports an error for that width, and
otherwise return the wrapped encrypted integer type for that width; the
error flag is set if and only if the diagnostic callback fired. -/
theorem get_throws_iff_checked_error (env : FHETypeEnv) (width : Nat) :
    (IntegerTypeGetChecked env.eintVerifyFails env.eintRaw width).isError =
        env.eintVerifyFails width
    ∧ (IntegerTypeGetChecked env.esintVerifyFails env.esintRaw width).isError =
        env.esintVerifyFails width
    ∧ encryptedIntegerTypeGet env width =
        (if env.eintVerifyFails width
         then Except.error "cant create eint with the given width"
         else Except.ok (env.eintRaw width))
    ∧ encryptedSignedIntegerTypeGet env width =
        (if env.esintVerifyFails width
         then Except.error "cant create esint with the given width"
         else Except.ok (env.esintRaw width)) := by
  unfold encryptedIntegerTypeGet encryptedSignedIntegerTypeGet IntegerTypeGetChecked
  by_cases h1 : env.eintVerifyFails width <;>
    by_cases h2 : env.esintVerifyFails width <;> simp [h1, h2]

end FHEModule
